import Mathlib

/-!
Shallow embedding of the RGSS encrypted-archive filesystem layer of
`src/filesystem.cpp` (mkxp), covering the keystream generator, the entry
I/O handle (`RGSS_ioRead`, `RGSS_ioSeek`, `RGSS_ioDuplicate`), the archive
parser (`RGSS_openArchive`), the archiver callbacks (`RGSS_openRead`,
`RGSS_stat`) and the filesystem facade (`completeFileName`, `openReadInt`,
`FileSystem::exists`).

Machine integers are embedded as `Nat` with explicit reductions modulo
`2^32` (`quint32`) and `2^64` (`quint64`/`PHYSFS_uint64`) where the C++
arithmetic can wrap.  A raw PhysFS byte source (`PHYSFS_Io`) is embedded as
the total function `Nat → Nat` giving the byte content of the backing
stream at each absolute position: `RGSS_ioRead` re-seeks the raw source to
`data.offset + currentOffset` before every decrypting loop, so the raw
source's own cursor position is unobservable and only its content matters.
-/

/-- `quint32` modulus. -/
def U32 : Nat := 2 ^ 32

/-- `quint64` / `PHYSFS_uint64` modulus. -/
def U64 : Nat := 2 ^ 64

/-- `quint64` wrap-around subtraction `a - b` (for `b ≤ 2^64`), as it
happens in `entry->data.size-1` (filesystem.cpp:184) and
`entry->data.size - entry->currentOffset` (line 151). -/
def u64sub (a b : Nat) : Nat := (a + U64 - b) % U64

/-- One step of the keystream recurrence `magic = magic * 7 + 3` in
`quint32` arithmetic, from `advanceMagic` (filesystem.cpp:95-103), which
stores this new value and hands back the pre-advance one. -/
def magicStep (m : Nat) : Nat := (m * 7 + 3) % U32

/-- `k`-fold application of the keystream recurrence. -/
def magicIter : Nat → Nat → Nat
  | 0, m => m
  | k + 1, m => magicIter k (magicStep m)

/-- `RGSS_MAGIC` (filesystem.cpp:90): the keystream seed `0xDEADCAFE`. -/
def RGSS_MAGIC : Nat := 0xDEADCAFE

/-- First header constant (filesystem.cpp:87). -/
def RGSS_HEADER_1 : Nat := 0x53534752

/-- Second header constant (filesystem.cpp:88). -/
def RGSS_HEADER_2 : Nat := 0x1004441

/-- `RGSS_entryData` (filesystem.cpp:37-42): per-entry metadata. -/
structure RGSS_entryData where
  offset : Nat
  size : Nat
  startMagic : Nat
deriving DecidableEq

/-- `RGSS_entryHandle` (filesystem.cpp:44-62): per-open-file cursor.
`rawSource` embeds the `PHYSFS_Io *io` member as the byte content of the
duplicated backing stream; `none` stands for the indeterminate pointer the
copy constructor (lines 57-61) leaves behind, since that constructor
initializes only `data`, `currentMagic` and `currentOffset`. -/
structure RGSS_entryHandle where
  data : RGSS_entryData
  currentMagic : Nat
  currentOffset : Nat
  rawSource : Option (Nat → Nat)

/-- The primary `RGSS_entryHandle` constructor (filesystem.cpp:51-55)
together with the raw-source wiring `entry->io = archiveIo->duplicate(...)`
done by `RGSS_openRead` (line 375). -/
def freshHandle (d : RGSS_entryData) (f : Nat → Nat) : RGSS_entryHandle :=
  { data := d, currentMagic := d.startMagic, currentOffset := 0, rawSource := some f }

/-- The copy constructor `RGSS_entryHandle(const RGSS_entryHandle &)`
(filesystem.cpp:57-61): its initializer list copies `data`, `currentMagic`
and `currentOffset` and does not mention `io`, so the new handle's raw
source is default-initialized to an indeterminate pointer (`none`). -/
def RGSS_entryHandleCopy (other : RGSS_entryHandle) : RGSS_entryHandle :=
  { data := other.data, currentMagic := other.currentMagic,
    currentOffset := other.currentOffset, rawSource := none }

/-- `RGSS_ioDuplicate` (filesystem.cpp:221-232): allocates a fresh
`PHYSFS_Io` whose opaque pointer is a copy-constructed handle. -/
def RGSS_ioDuplicate (h : RGSS_entryHandle) : RGSS_entryHandle :=
  RGSS_entryHandleCopy h

/-- The decrypting loop of `RGSS_ioRead` (filesystem.cpp:157-169): `o`
counts `n` raw bytes upward; each byte at absolute stream position
`base + o` is XORed with `(magic >> (8*(o % 4))) & 0xFF`, and the
recurrence advances when `++o % 4 == 0`.  Returns the decoded bytes and
the final keystream word. -/
def readLoop (f : Nat → Nat) (base : Nat) : Nat → Nat → Nat → List Nat × Nat
  | magic, _, 0 => ([], magic)
  | magic, o, n + 1 =>
    let magicByte := (magic >>> (8 * (o % 4))) &&& 255
    let b := (f (base + o) % 256) ^^^ magicByte
    let m2 := if (o + 1) % 4 = 0 then magicStep magic else magic
    let rest := readLoop f base m2 (o + 1) n
    (b :: rest.1, rest.2)

/-- `RGSS_ioRead` (filesystem.cpp:146-174).  The C++ first clamps `len` to
`data.size - currentOffset` in `quint64` arithmetic, re-seeks the raw
source to `data.offset + currentOffset`, runs the decrypting loop, and
adds `toRead` to `currentOffset`.  A handle whose raw source is the
uninitialized pointer of the copy constructor has no defined behaviour:
that case is `none`. -/
def RGSS_ioRead (h : RGSS_entryHandle) (len : Nat) :
    Option (List Nat × RGSS_entryHandle) :=
  match h.rawSource with
  | none => none
  | some f =>
    let toRead := min (u64sub h.data.size h.currentOffset) len
    let r := readLoop f h.data.offset h.currentMagic h.currentOffset toRead
    some (r.1, { h with currentMagic := r.2, currentOffset := h.currentOffset + toRead })

/-- `RGSS_ioSeek` (filesystem.cpp:176-203).  Returns the C `int` result as
a `Bool` (`1` = success, `0` = failure) with the updated handle.  The raw
source is also re-seeked by the C++ (line 200), which is unobservable
here; the bounds test is `offset > entry->data.size-1` in `quint64`
arithmetic, so for `size = 0` the bound wraps to `2^64 - 1`. -/
def RGSS_ioSeek (h : RGSS_entryHandle) (offset : Nat) : Bool × RGSS_entryHandle :=
  if offset = h.currentOffset then (true, h)
  else if offset > u64sub h.data.size 1 then (false, h)
  else
    let h1 := if offset < h.currentOffset then
        { h with currentOffset := 0, currentMagic := h.data.startMagic }
      else h
    let dwordsSought := (offset - h1.currentOffset) / 4
    (true, { h1 with currentMagic := magicIter dwordsSought h1.currentMagic,
                     currentOffset := offset })

/-- `readUint32` (filesystem.cpp:73-85): little-endian composition of the
next four bytes.  The masks `& 0xFF` &c. in the C++ cancel the sign
extension of the `char` buffer, leaving exactly this value; the byte
content is reduced mod 256 since a stream byte is 8 bits.  The C
function's success flag (`count == 4`) is checked separately by the
callers that use it, as `pos + 4 ≤ len` over the stream length. -/
def readU32val (f : Nat → Nat) (pos : Nat) : Nat :=
  (f pos % 256) + (f (pos + 1) % 256) * 256 + (f (pos + 2) % 256) * 65536 +
    (f (pos + 3) % 256) * 16777216

/-- Backslash-to-slash normalization of a decrypted filename byte
(filesystem.cpp:294-295). -/
def slashConv (b : Nat) : Nat := if b = 92 then 47 else b

/-- The filename-decryption loop of `RGSS_openArchive`
(filesystem.cpp:289-296): each encrypted byte at `pos` is XORed with the
low 8 bits of one full `advanceMagic` result, so one recurrence step is
consumed per filename byte; backslashes are then mapped to slashes. -/
def decryptName (f : Nat → Nat) : Nat → Nat → Nat → List Nat × Nat
  | magic, _, 0 => ([], magic)
  | magic, pos, n + 1 =>
    let c := (f pos % 256) ^^^ (magic &&& 255)
    let rest := decryptName f (magicStep magic) (pos + 1) n
    (slashConv c :: rest.1, rest.2)

/-- A decrypted table row: the filename bytes and the recorded metadata. -/
structure ParsedNamed where
  name : List Nat
  entry : RGSS_entryData
deriving DecidableEq

/-- One iteration of the entry-table loop of `RGSS_openArchive`
(filesystem.cpp:277-320): read and decrypt `nameLen` (XOR with one full
`advanceMagic` word), decrypt `nameLen` filename bytes, read and decrypt
`entrySize` (one full word), record the metadata at the current stream
position, and seek past the payload.  Fails exactly when reading the
4-byte `nameLen` field hits end of stream (`readUint32` returns a short
count), the loop's only termination signal. -/
def parseOneEntry (f : Nat → Nat) (len pos magic : Nat) :
    Option (ParsedNamed × Nat × Nat) :=
  if pos + 4 ≤ len then
    let nameLen := readU32val f pos ^^^ magic
    let m1 := magicStep magic
    let nd := decryptName f m1 (pos + 4) nameLen
    let entrySize := readU32val f (pos + 4 + nameLen) ^^^ nd.2
    let m3 := magicStep nd.2
    some (⟨nd.1, ⟨pos + 8 + nameLen, entrySize, m3⟩⟩, pos + 8 + nameLen + entrySize, m3)
  else none

/-- The full entry-table loop, with fuel.  Each iteration moves `pos`
forward by at least 8, so `len + 1` rounds of fuel (what
`RGSS_openArchive` below passes) can never run out before the `nameLen`
read fails. -/
def parseTable (f : Nat → Nat) (len : Nat) : Nat → Nat → Nat → List ParsedNamed
  | 0, _, _ => []
  | fuel + 1, pos, magic =>
    match parseOneEntry f len pos magic with
    | none => []
    | some (e, pos2, m2) => e :: parseTable f len fuel pos2 m2

/-- A `char` buffer handed to `QByteArray`/`QHash` keys is read as a C
string: it ends at the first NUL byte. -/
def cstr (l : List Nat) : List Nat := l.takeWhile (fun b => b ≠ 0)

/-- The observable content of the archive's `QHash<QByteArray,
RGSS_entryData> entryHash` (filesystem.cpp:69). -/
def EntryHash : Type := List (List Nat × RGSS_entryData)

/-- `QHash::insert`: by Qt's documented semantics, inserting an existing
key replaces its value.  Embedded as a cons whose lookup stops at the most
recent binding, which is observationally the same map. -/
def hashInsert (h : EntryHash) (k : List Nat) (v : RGSS_entryData) : EntryHash :=
  (k, v) :: h

/-- `QHash` lookup (`operator[]` / `contains`): the most recently inserted
binding of the key. -/
def hashLookup : EntryHash → List Nat → Option RGSS_entryData
  | [], _ => none
  | (k, v) :: rest, name => if k = name then some v else hashLookup rest name

/-- `data->entryHash.insert(nameBuf, entry)` for every parsed table row in
order (filesystem.cpp:308); the key is the NUL-terminated buffer content. -/
def buildEntryHash (tbl : List ParsedNamed) : EntryHash :=
  tbl.foldl (fun h e => hashInsert h (cstr e.name) e.entry) []

/-- The folder-registration loop (filesystem.cpp:310-317): `i` runs from
`nameLen` down to `1`; wherever `nameBuf[i]` is a slash the buffer is
truncated there and registered as a directory.  A truncation at `i` only
writes position `i`, so later (smaller-index) probes still see the
original bytes; the registered key is the buffer up to its first NUL. -/
def entryDirs (name : List Nat) : List (List Nat) :=
  (((List.range (name.length + 1)).reverse).filter
      (fun i => decide (0 < i) && decide (name.getD i 0 = 47))).map
    (fun i => cstr (name.take i))

/-- `dirHash.insert` guarded by `contains` (filesystem.cpp:315-316): a set. -/
def dirInsert (d : List (List Nat)) (k : List Nat) : List (List Nat) :=
  if k ∈ d then d else d ++ [k]

/-- The directory set accumulated over all table rows. -/
def buildDirHash (tbl : List ParsedNamed) : List (List Nat) :=
  tbl.foldl (fun d e => (entryDirs e.name).foldl dirInsert d) []

/-- `RGSS_archiveData` (filesystem.cpp:66-71): the backing stream and the
two hashes built at mount time. -/
structure RGSS_archiveData where
  archiveBytes : Nat → Nat
  entryHash : EntryHash
  dirHash : List (List Nat)

/-- `RGSS_openArchive` (filesystem.cpp:258-323): declines write mode,
validates the 8-byte header, then parses the entry table starting at
stream position 8 with the seed `RGSS_MAGIC`. -/
def RGSS_openArchive (f : Nat → Nat) (len : Nat) (forWrite : Bool) :
    Option RGSS_archiveData :=
  if forWrite then none
  else if readU32val f 0 = RGSS_HEADER_1 ∧ readU32val f 4 = RGSS_HEADER_2 then
    some { archiveBytes := f,
           entryHash := buildEntryHash (parseTable f len (len + 1) 8 RGSS_MAGIC),
           dirHash := buildDirHash (parseTable f len (len + 1) 8 RGSS_MAGIC) }
  else none

/-- `RGSS_openRead` (filesystem.cpp:366-383): fails when the filename is
not in the entry hash, else constructs a fresh handle on that entry whose
raw source is a duplicate of the archive's backing stream. -/
def RGSS_openRead (a : RGSS_archiveData) (filename : List Nat) :
    Option RGSS_entryHandle :=
  match hashLookup a.entryHash filename with
  | none => none
  | some d => some (freshHandle d a.archiveBytes)

/-- `PHYSFS_FileType` as used by `RGSS_stat`. -/
inductive PHYSFS_FileType where
  | regular : PHYSFS_FileType
  | directory : PHYSFS_FileType
deriving DecidableEq

/-- The `PHYSFS_Stat` fields `RGSS_stat` fills (timestamps are all zero
and omitted). -/
structure PHYSFS_StatData where
  filesize : Nat
  filetype : PHYSFS_FileType
  readonly : Bool
deriving DecidableEq

/-- `RGSS_stat` (filesystem.cpp:385-418): not-found when the name is in
neither hash; a file entry reports its size, a directory reports size 0. -/
def RGSS_stat (a : RGSS_archiveData) (filename : List Nat) :
    Option PHYSFS_StatData :=
  match hashLookup a.entryHash filename with
  | some e => some ⟨e.size, PHYSFS_FileType.regular, true⟩
  | none =>
    if filename ∈ a.dirHash then some ⟨0, PHYSFS_FileType.directory, true⟩
    else none

/-- `sizeof(nameBuf)` — the fixed 512-byte stack buffer of
`RGSS_openArchive` (filesystem.cpp:287). -/
def RGSS_nameBufSize : Nat := 512

/-- The `nameBuf` indices RGSS_openArchive touches while handling one
entry whose decrypted length is `nameLen`: the decrypt loop writes
`0 .. nameLen-1` (line 293), the terminator write touches `nameLen`
(line 297), and the folder scan reads `nameLen` down to `1`
(lines 311-312).  No bound on `nameLen` is checked anywhere. -/
def nameBufIndices (nameLen : Nat) : List Nat := List.range (nameLen + 1)

/-- `FileSystem::FileType`.  Modelled from the spec: the enum itself is
declared in `filesystem.h`, which is not among the given sources; the spec
names the categories image, audio, font plus the guard value `Undefined`,
and `fileExtensions` (filesystem.cpp:575-584) is indexed in that order. -/
inductive FileType where
  | Image : FileType
  | Audio : FileType
  | Font : FileType
  | Undefined : FileType
deriving DecidableEq

/-- `imgExt` (filesystem.cpp:554-558). -/
def imgExt : List String := ["jpg", "png"]

/-- `audExt` (filesystem.cpp:560-568); the mid/midi lines are commented
out in the source. -/
def audExt : List String := ["mp3", "ogg", "wav", "wma"]

/-- `fonExt` (filesystem.cpp:570-573). -/
def fonExt : List String := ["ttf"]

/-- The `fileExtensions` table (filesystem.cpp:575-584), indexed by file
type.  `Undefined` is never used as an index (guarded at line 594); the
empty list is a placeholder. -/
def fileExtensions : FileType → List String
  | FileType.Image => imgExt
  | FileType.Audio => audExt
  | FileType.Font => fonExt
  | FileType.Undefined => []

/-- The extension-probing loop of `completeFileName`
(filesystem.cpp:596-603): first `filename + "." + ext` that exists.
`ex` abstracts `PHYSFS_exists`, i.e. membership in the merged mount
search order. -/
def firstExisting (ex : String → Bool) (filename : String) :
    List String → Option String
  | [] => none
  | e :: rest =>
    if ex (filename ++ "." ++ e) then some (filename ++ "." ++ e)
    else firstExisting ex filename rest

/-- `completeFileName` (filesystem.cpp:586-606): the verbatim name if it
exists, else the first extension-completed candidate when the type is
known, else resolution failure (the C++ returns a null pointer). -/
def completeFileName (ex : String → Bool) (filename : String) (t : FileType) :
    Option String :=
  if ex filename then some filename
  else if t ≠ FileType.Undefined then firstExisting ex filename (fileExtensions t)
  else none

/-- The error kinds `openReadInt` can throw.  Modelled from the spec:
`exception.h` is not among the given sources; FileNotFound (`NoFileError`)
carries the originally requested logical name, and `PHYSFSError` is the
backend transport failure. -/
inductive FSError where
  | NoFileError : String → FSError
  | PHYSFSError : FSError
deriving DecidableEq

/-- `openReadInt` (filesystem.cpp:608-624): resolution failure throws
`NoFileError` with the original `filename`; a resolved name that the
backend cannot open (`openOk` abstracts `PHYSFS_openRead` succeeding)
throws `PHYSFSError`; otherwise the opened handle is embedded as the
resolved name. -/
def openReadInt (ex openOk : String → Bool) (filename : String) (t : FileType) :
    Except FSError String :=
  match completeFileName ex filename t with
  | none => Except.error (FSError.NoFileError filename)
  | some found =>
    if openOk found then Except.ok found else Except.error FSError.PHYSFSError

/-- `FileSystem::exists` (filesystem.cpp:730-735): the resolution
succeeded (`foundName != 0`). -/
def FS_exists (ex : String → Bool) (filename : String) (t : FileType) : Bool :=
  (completeFileName ex filename t).isSome

/-! ### Concrete test fixtures

An archive builder (the XOR transform is an involution, so encoding is
decoding run backwards), used only to produce concrete witness inputs. -/

/-- Little-endian encoding of a 32-bit value, inverse of `readU32val`. -/
def encodeU32 (v : Nat) : List Nat :=
  [v % 256, v / 256 % 256, v / 65536 % 256, v / 16777216 % 256]

/-- Encrypt filename bytes: inverse of the `decryptName` masks. -/
def encodeName (magic : Nat) : List Nat → List Nat
  | [] => []
  | c :: rest => (c ^^^ (magic &&& 255)) :: encodeName (magicStep magic) rest

/-- Encode one table entry (encrypted `nameLen`, name, `entrySize`,
payload) and the keystream word left for the next entry. -/
def encodeEntry (magic : Nat) (name payload : List Nat) : List Nat × Nat :=
  (encodeU32 (name.length ^^^ magic) ++ encodeName (magicStep magic) name ++
     encodeU32 (payload.length ^^^ magicIter (name.length + 1) magic) ++ payload,
   magicIter (name.length + 2) magic)

/-- A 26-byte archive holding two empty entries both named `"a"`. -/
def testArchive : List Nat :=
  encodeU32 RGSS_HEADER_1 ++ encodeU32 RGSS_HEADER_2 ++
    (encodeEntry RGSS_MAGIC [97] []).1 ++
    (encodeEntry (encodeEntry RGSS_MAGIC [97] []).2 [97] []).1

/-- `testArchive` as a byte source. -/
def testByteAt : Nat → Nat := fun i => testArchive.getD i 0

/-- The first parsed row of `testArchive`. -/
def testRow1 : ParsedNamed := ⟨[97], ⟨17, 0, magicIter 3 RGSS_MAGIC⟩⟩

/-- The second parsed row of `testArchive`. -/
def testRow2 : ParsedNamed := ⟨[97], ⟨26, 0, magicIter 6 RGSS_MAGIC⟩⟩

/-- The archive data `RGSS_openArchive` builds from `testArchive`. -/
def testArc : RGSS_archiveData :=
  { archiveBytes := testByteAt,
    entryHash := buildEntryHash (parseTable testByteAt 26 27 8 RGSS_MAGIC),
    dirHash := buildDirHash (parseTable testByteAt 26 27 8 RGSS_MAGIC) }

/-- An all-zero raw byte source. -/
def zeroBytes : Nat → Nat := fun _ => 0

/-- An 8-byte entry starting at stream position 0, used by the handle
witnesses. -/
def testEntryA : RGSS_entryData := ⟨0, 8, RGSS_MAGIC⟩

/-- A handle whose cursor sits at the end of its 4-byte entry. -/
def atEndHandle : RGSS_entryHandle :=
  { data := ⟨0, 4, RGSS_MAGIC⟩, currentMagic := magicIter 1 RGSS_MAGIC,
    currentOffset := 4, rawSource := some zeroBytes }

/-- A fresh handle on an entry of size 0. -/
def zeroSizeHandle : RGSS_entryHandle := freshHandle ⟨0, 0, RGSS_MAGIC⟩ zeroBytes

/-- A handle used by the seek witness: fresh on a 10-byte entry. -/
def seekTestHandle : RGSS_entryHandle := freshHandle ⟨0, 10, RGSS_MAGIC⟩ zeroBytes

/-- An archive whose single entry has a 512-byte filename. -/
def bigArchive : List Nat :=
  encodeU32 RGSS_HEADER_1 ++ encodeU32 RGSS_HEADER_2 ++
    (encodeEntry RGSS_MAGIC (List.replicate 512 97) []).1

/-- `bigArchive` as a byte source. -/
def bigByteAt : Nat → Nat := fun i => bigArchive.getD i 0

/-! ### Keystream lemmas -/

/-- Unfolding `magicIter` at a successor from the left. -/
theorem magicIter_succ (k m : Nat) : magicIter (k + 1) m = magicIter k (magicStep m) :=
  rfl

/-- The recurrence commutes with its own iteration. -/
theorem magicStep_magicIter (k m : Nat) :
    magicStep (magicIter k m) = magicIter (k + 1) m := by
  induction k generalizing m with
  | zero => rfl
  | succ k ih =>
    rw [magicIter_succ, ih, ← magicIter_succ]

/-! ### Entry I/O handle: duplication, seek edge cases -/

/-- C2: `RGSS_ioDuplicate` copies the cursor state `{data, currentMagic,
currentOffset}`, but the copy constructor never initializes the `io`
member, so the duplicated handle owns no raw-source duplicate and every
read through it hits the undefined (uninitialized-pointer) case — the
claimed separate duplication of the raw byte source does not happen. -/
theorem c2_duplicate_loses_raw_source (h : RGSS_entryHandle) :
    (RGSS_ioDuplicate h).data = h.data ∧
    (RGSS_ioDuplicate h).currentMagic = h.currentMagic ∧
    (RGSS_ioDuplicate h).currentOffset = h.currentOffset ∧
    (RGSS_ioDuplicate h).rawSource = none ∧
    ∀ len, RGSS_ioRead (RGSS_ioDuplicate h) len = none :=
  ⟨rfl, rfl, rfl, rfl, fun _ => rfl⟩

/-- C9: seek with `target = currentOffset` returns success before any
bounds check (in particular when that offset equals `size`), and on an
entry of size 0 the failure test compares against `size - 1` wrapped to
`2^64 - 1` in unsigned 64-bit arithmetic, so no inbound target ever
fails. -/
theorem c9_seek_edge_cases (h : RGSS_entryHandle) (target : Nat) :
    (target = h.currentOffset → RGSS_ioSeek h target = (true, h)) ∧
    (h.data.size = 0 → target < U64 → (RGSS_ioSeek h target).1 = true) := by
  constructor
  · intro he
    simp [RGSS_ioSeek, he]
  · intro hz hlt
    by_cases he : target = h.currentOffset
    · simp [RGSS_ioSeek, he]
    · have hb : ¬ target > u64sub h.data.size 1 := by
        rw [hz]
        simp only [u64sub, U64] at hlt ⊢
        omega
      simp [RGSS_ioSeek, he, hb]

/-- The seek edge cases at concrete handles: success at `target =
currentOffset = size` on a fully-read 4-byte entry, and success at
`target = 5` on an entry of size 0. -/
theorem c9_seek_edge_cases_witness :
    RGSS_ioSeek atEndHandle 4 = (true, atEndHandle) ∧
    (RGSS_ioSeek zeroSizeHandle 5).1 = true :=
  ⟨(c9_seek_edge_cases atEndHandle 4).1 rfl,
   (c9_seek_edge_cases zeroSizeHandle 5).2 rfl (by decide)⟩

/-- C4 counterexample: the claim says seek "returns failure whenever
target ≥ size", but on an entry of size 0 a seek to 5 succeeds (the
bound `size - 1` wraps in unsigned arithmetic). -/
theorem c4_counterexample :
    zeroSizeHandle.data.size ≤ 5 ∧ (RGSS_ioSeek zeroSizeHandle 5).1 = true :=
  ⟨by decide, by decide⟩

/-- C4 (amended): `RGSS_ioSeek` succeeds as a no-op when `target =
currentOffset` (checked first); otherwise it fails exactly when `target >
size - 1` computed in unsigned 64-bit arithmetic (for `1 ≤ size < 2^64`
that is `target ≥ size`); a passing rewind resets to `(0, startMagic)`
and advances the recurrence `target/4` times; a passing forward seek
advances it `(target - currentOffset)/4` times; both set `currentOffset
= target`. -/
theorem c4_seek_characterization (h : RGSS_entryHandle) (target : Nat) :
    (target = h.currentOffset → RGSS_ioSeek h target = (true, h)) ∧
    (target ≠ h.currentOffset → target > u64sub h.data.size 1 →
      RGSS_ioSeek h target = (false, h)) ∧
    (1 ≤ h.data.size → h.data.size < U64 → target ≠ h.currentOffset →
      h.data.size ≤ target → RGSS_ioSeek h target = (false, h)) ∧
    (target < h.currentOffset → target ≤ u64sub h.data.size 1 →
      RGSS_ioSeek h target =
        (true, { h with currentOffset := target,
                        currentMagic := magicIter (target / 4) h.data.startMagic })) ∧
    (h.currentOffset < target → target ≤ u64sub h.data.size 1 →
      RGSS_ioSeek h target =
        (true, { h with currentOffset := target,
                        currentMagic := magicIter ((target - h.currentOffset) / 4)
                          h.currentMagic })) := by
  refine ⟨?_, ?_, ?_, ?_, ?_⟩
  · intro he
    simp [RGSS_ioSeek, he]
  · intro hne hgt
    simp [RGSS_ioSeek, hne, hgt]
  · intro h1 hsz hne hge
    have hu : u64sub h.data.size 1 = h.data.size - 1 := by
      simp only [u64sub, U64] at hsz ⊢
      omega
    have hgt : target > u64sub h.data.size 1 := by
      rw [hu]; omega
    simp [RGSS_ioSeek, hne, hgt]
  · intro hlt hle
    have hne : ¬ target = h.currentOffset := by omega
    have hng : ¬ target > u64sub h.data.size 1 := by omega
    simp [RGSS_ioSeek, hne, hng, hlt]
  · intro hgt hle
    have hne : ¬ target = h.currentOffset := by omega
    have hng : ¬ target > u64sub h.data.size 1 := by omega
    have hnl : ¬ target < h.currentOffset := by omega
    simp [RGSS_ioSeek, hne, hng, hnl]

/-- The seek characterization applied at a concrete forward seek on a
fresh 10-byte entry handle. -/
theorem c4_seek_characterization_witness :
    RGSS_ioSeek seekTestHandle 5 =
      (true, { seekTestHandle with
                 currentOffset := 5
                 currentMagic := magicIter ((5 - seekTestHandle.currentOffset) / 4)
                   seekTestHandle.currentMagic }) :=
  (c4_seek_characterization seekTestHandle 5).2.2.2.2 (by decide) (by decide)

/-! ### The keystream invariant across seeks -/

/-- C1 fails on the code: starting from a fresh handle on an 8-byte
entry, reading 2 bytes and then seeking forward to offset 5 advances the
recurrence `(5 - 2)/4 = 0` times, so at `currentOffset = 5` the handle's
`currentMagic` still equals `startMagic`, not the `floor(5/4) = 1`-fold
advance the invariant demands. -/
theorem c1_magic_invariant_broken :
    ∃ r, RGSS_ioRead (freshHandle testEntryA zeroBytes) 2 = some r ∧
      r.2.currentOffset = 2 ∧
      (RGSS_ioSeek r.2 5).1 = true ∧
      (RGSS_ioSeek r.2 5).2.currentOffset = 5 ∧
      (RGSS_ioSeek r.2 5).2.currentMagic ≠
        magicIter (5 / 4) testEntryA.startMagic := by
  refine ⟨_, rfl, ?_, ?_, ?_, ?_⟩ <;> decide

/-- C3 fails on the code: on an all-zero 8-byte entry, `read(2)` then
`seek(5)` then `read(1)` decrypts byte 5 with the stale keystream word,
while a fresh handle with `seek(5)` then `read(1)` decrypts it with the
once-advanced word — the two decoded bytes differ. -/
theorem c3_seek_then_read_differs :
    ∃ r1, RGSS_ioRead (freshHandle testEntryA zeroBytes) 2 = some r1 ∧
    ∃ s, RGSS_ioSeek r1.2 5 = (true, s) ∧
    ∃ sf, RGSS_ioSeek (freshHandle testEntryA zeroBytes) 5 = (true, sf) ∧
    ∃ a ra b rb, RGSS_ioRead s 1 = some ([a], ra) ∧
      RGSS_ioRead sf 1 = some ([b], rb) ∧ a ≠ b := by
  refine ⟨_, rfl, _, rfl, _, rfl, _, _, _, _, rfl, rfl, ?_⟩
  decide

/-! ### The 512-byte name buffer -/

set_option maxRecDepth 32768

/-- C7: handling one entry's filename touches `nameBuf` indices
`0 .. nameLen`; they all stay inside the 512-byte buffer iff the
decrypted `nameLen` is at most 511.  The parser validates nothing: it
accepts an entry whose decrypted `nameLen` is 512, whose accesses then
leave the buffer. -/
theorem c7_namebuf_bounds :
    (∀ nameLen : Nat,
      (∀ j ∈ nameBufIndices nameLen, j < RGSS_nameBufSize) ↔ nameLen ≤ 511) ∧
    (∃ e pos2 m2,
      parseOneEntry bigByteAt bigArchive.length 8 RGSS_MAGIC = some (e, pos2, m2) ∧
      e.name.length = 512 ∧
      ¬ (∀ j ∈ nameBufIndices e.name.length, j < RGSS_nameBufSize)) := by
  constructor
  · intro nameLen
    simp only [nameBufIndices, List.mem_range, RGSS_nameBufSize]
    constructor
    · intro hall
      have := hall nameLen (by omega)
      omega
    · intro hle j hj
      omega
  · refine ⟨⟨List.replicate 512 97, ⟨528, 0, magicIter 514 RGSS_MAGIC⟩⟩, 528,
      magicIter 514 RGSS_MAGIC, by decide, by decide, by decide⟩

/-- The in-bounds half of the buffer-bound equivalence at a concrete
length. -/
theorem c7_namebuf_bounds_witness : (5 : Nat) ≤ 511 :=
  (c7_namebuf_bounds.1 5).mp (by decide)

/-! ### C5: the payload decryption rule -/

/-- C5: in the decrypting loop started at entry offset `offs` with
keystream word `magic`, the byte at entry offset `o = offs + i` is
XOR-masked with `(m >>> (8*(o mod 4))) &&& 0xFF`, where `m` is the
running keystream word — `magic` advanced once per 4-byte boundary
completed since `offs`, i.e. `(offs+i)/4 - offs/4` times — and the loop
advances the recurrence exactly once per completed 4-byte block
(`(offs+n)/4 - offs/4` times over `n` bytes), never once per byte. -/
theorem c5_read_mask_and_advance (f : Nat → Nat) (base : Nat) :
    ∀ (n offs magic : Nat),
      (readLoop f base magic offs n).2 = magicIter ((offs + n) / 4 - offs / 4) magic ∧
      ∀ i, i < n →
        (readLoop f base magic offs n).1.get? i =
          some ((f (base + (offs + i)) % 256) ^^^
            ((magicIter ((offs + i) / 4 - offs / 4) magic >>>
              (8 * ((offs + i) % 4))) &&& 255)) := by
  intro n
  induction n with
  | zero =>
    intro offs magic
    exact ⟨by simp [readLoop, magicIter], fun i hi => absurd hi (by omega)⟩
  | succ n ih =>
    intro offs magic
    by_cases h4 : (offs + 1) % 4 = 0
    · constructor
      · simp [readLoop, h4]
        rw [(ih (offs + 1) (magicStep magic)).1, ← magicIter_succ]
        congr 1
        omega
      · intro i hi
        cases i with
        | zero => simp [readLoop, magicIter]
        | succ j =>
          have hrec := (ih (offs + 1) (magicStep magic)).2 j (by omega)
          simp only [readLoop, h4, if_pos, List.get?_cons_succ]
          rw [hrec, ← magicIter_succ]
          have e1 : offs + 1 + j = offs + (j + 1) := by omega
          rw [e1]
          have eK : (offs + (j + 1)) / 4 - (offs + 1) / 4 + 1 =
              (offs + (j + 1)) / 4 - offs / 4 := by omega
          rw [eK]
    · constructor
      · simp [readLoop, h4]
        rw [(ih (offs + 1) magic).1]
        congr 1
        omega
      · intro i hi
        cases i with
        | zero => simp [readLoop, magicIter]
        | succ j =>
          have hrec := (ih (offs + 1) magic).2 j (by omega)
          simp [readLoop, h4]
          simp only [List.get?_eq_getElem?] at hrec
          rw [hrec]
          have e1 : offs + 1 + j = offs + (j + 1) := by omega
          rw [e1]
          have eK : (offs + (j + 1)) / 4 - (offs + 1) / 4 =
              (offs + (j + 1)) / 4 - offs / 4 := by omega
          rw [eK]

/-- The decryption rule evaluated at a concrete loop: 5 bytes starting at
entry offset 2, byte index 3 (entry offset 5) is masked with the low byte
of the once-advanced keystream word shifted by 8. -/
theorem c5_read_mask_and_advance_witness :
    (readLoop zeroBytes 0 RGSS_MAGIC 2 5).1.get? 3 =
      some ((zeroBytes (0 + (2 + 3)) % 256) ^^^
        ((magicIter ((2 + 3) / 4 - 2 / 4) RGSS_MAGIC >>> (8 * ((2 + 3) % 4))) &&& 255)) :=
  (c5_read_mask_and_advance zeroBytes 0 5 2 RGSS_MAGIC).2 3 (by decide)

/-! ### C6: entry-table decryption rates -/

/-- Specification of the filename-decryption loop: the decoded name has
the requested length, the loop consumes exactly one recurrence step per
byte, and byte `i` is masked with the low 8 bits of the `i`-fold-advanced
word. -/
theorem decryptName_spec (f : Nat → Nat) :
    ∀ (n magic pos : Nat),
      (decryptName f magic pos n).1.length = n ∧
      (decryptName f magic pos n).2 = magicIter n magic ∧
      ∀ i, i < n →
        (decryptName f magic pos n).1.get? i =
          some (slashConv ((f (pos + i) % 256) ^^^ (magicIter i magic &&& 255))) := by
  intro n
  induction n with
  | zero =>
    intro magic pos
    exact ⟨rfl, rfl, fun i hi => absurd hi (by omega)⟩
  | succ n ih =>
    intro magic pos
    refine ⟨?_, ?_, ?_⟩
    · simp [decryptName, (ih (magicStep magic) (pos + 1)).1]
    · simp [decryptName, (ih (magicStep magic) (pos + 1)).2.1, ← magicIter_succ]
    · intro i hi
      cases i with
      | zero => simp [decryptName, magicIter]
      | succ j =>
        have hrec := (ih (magicStep magic) (pos + 1)).2.2 j (by omega)
        simp only [List.get?_eq_getElem?] at hrec
        simp [decryptName]
        rw [hrec, ← magicIter_succ]
        have e1 : pos + 1 + j = pos + (j + 1) := by omega
        rw [e1]

/-- C6: parsing one table entry decrypts the 4-byte `nameLen` field by
XOR with exactly one full 32-bit `advanceMagic` word, each individual
filename byte by XOR with the low 8 bits of one further full recurrence
step (one step per byte, not per 4 bytes), and the 4-byte `entrySize`
field by XOR with one further full word; an entry with an `L`-byte name
therefore consumes exactly `L + 2` recurrence steps. -/
theorem c6_table_decryption_rates (f : Nat → Nat) (len pos magic : Nat)
    (hpos : pos + 4 ≤ len) :
    ∃ e pos2 m2, parseOneEntry f len pos magic = some (e, pos2, m2) ∧
      e.name.length = readU32val f pos ^^^ magic ∧
      (∀ i, i < e.name.length →
        e.name.get? i =
          some (slashConv ((f (pos + 4 + i) % 256) ^^^
            (magicIter (i + 1) magic &&& 255)))) ∧
      e.entry.size = readU32val f (pos + 4 + (readU32val f pos ^^^ magic)) ^^^
        magicIter ((readU32val f pos ^^^ magic) + 1) magic ∧
      m2 = magicIter ((readU32val f pos ^^^ magic) + 2) magic := by
  have hspec := decryptName_spec f (readU32val f pos ^^^ magic) (magicStep magic) (pos + 4)
  unfold parseOneEntry
  rw [if_pos hpos]
  refine ⟨_, _, _, rfl, ?_, ?_, ?_, ?_⟩
  · exact hspec.1
  · intro i hi
    rw [hspec.1] at hi
    have := hspec.2.2 i hi
    rw [this, ← magicIter_succ]
  · rw [hspec.2.1, ← magicIter_succ]
  · rw [hspec.2.1, magicStep_magicIter, ← magicIter_succ]

/-- The decryption-rate theorem applied to the concrete two-entry test
archive at table position 8. -/
theorem c6_table_decryption_rates_witness :
    ∃ e pos2 m2, parseOneEntry testByteAt 26 8 RGSS_MAGIC = some (e, pos2, m2) ∧
      e.name.length = readU32val testByteAt 8 ^^^ RGSS_MAGIC ∧
      (∀ i, i < e.name.length →
        e.name.get? i =
          some (slashConv ((testByteAt (8 + 4 + i) % 256) ^^^
            (magicIter (i + 1) RGSS_MAGIC &&& 255)))) ∧
      e.entry.size = readU32val testByteAt
          (8 + 4 + (readU32val testByteAt 8 ^^^ RGSS_MAGIC)) ^^^
        magicIter ((readU32val testByteAt 8 ^^^ RGSS_MAGIC) + 1) RGSS_MAGIC ∧
      m2 = magicIter ((readU32val testByteAt 8 ^^^ RGSS_MAGIC) + 2) RGSS_MAGIC :=
  c6_table_decryption_rates testByteAt 26 8 RGSS_MAGIC (by decide)

/-! ### C10: duplicate paths in the entry table -/

/-- The metadata of the last table row bearing a given (NUL-truncated)
name, if any. -/
def lastLookup : List ParsedNamed → List Nat → Option RGSS_entryData
  | [], _ => none
  | e :: rest, name =>
    match lastLookup rest name with
    | some v => some v
    | none => if cstr e.name = name then some e.entry else none

/-- Folding `hashInsert` over the table rows looks up to the last
matching row, falling back to the accumulator. -/
theorem hashLookup_foldl (name : List Nat) :
    ∀ (tbl : List ParsedNamed) (acc : EntryHash),
      hashLookup (tbl.foldl (fun h e => hashInsert h (cstr e.name) e.entry) acc) name =
        match lastLookup tbl name with
        | some v => some v
        | none => hashLookup acc name := by
  intro tbl
  induction tbl with
  | nil => intro acc; rfl
  | cons e rest ih =>
    intro acc
    simp only [List.foldl_cons]
    rw [ih]
    cases hcase : lastLookup rest name with
    | some v => simp [lastLookup, hcase]
    | none =>
      simp only [lastLookup, hcase]
      by_cases hk : cstr e.name = name
      · simp [hashLookup, hashInsert, hk]
      · simp [hashLookup, hashInsert, hk]

/-- A table none of whose rows bears the name has no last matching row. -/
theorem lastLookup_eq_none (name : List Nat) :
    ∀ (tbl : List ParsedNamed),
      (∀ k ek, tbl.get? k = some ek → cstr ek.name ≠ name) →
      lastLookup tbl name = none := by
  intro tbl
  induction tbl with
  | nil => intro _; rfl
  | cons e rest ih =>
    intro hall
    have hrest : lastLookup rest name = none :=
      ih (fun k ek hk => hall (k + 1) ek hk)
    simp only [lastLookup, hrest]
    rw [if_neg (hall 0 e rfl)]

/-- If row `j` bears the name and no later row does, the last matching
row is row `j`. -/
theorem lastLookup_at_last (name : List Nat) :
    ∀ (tbl : List ParsedNamed) (j : Nat) (ej : ParsedNamed),
      tbl.get? j = some ej → cstr ej.name = name →
      (∀ k ek, j < k → tbl.get? k = some ek → cstr ek.name ≠ name) →
      lastLookup tbl name = some ej.entry := by
  intro tbl
  induction tbl with
  | nil => intro j ej hj; simp at hj
  | cons e rest ih =>
    intro j ej hj hn hlast
    cases j with
    | zero =>
      have he : e = ej := by simpa using hj
      subst he
      have hrest : lastLookup rest name = none :=
        lastLookup_eq_none name rest (fun k ek hk => hlast (k + 1) ek (by omega) hk)
      simp only [lastLookup, hrest]
      rw [if_pos hn]
    | succ j2 =>
      have hj2 : rest.get? j2 = some ej := hj
      have hr := ih j2 ej hj2 hn (fun k ek hk hget => hlast (k + 1) ek (by omega) hget)
      simp only [lastLookup, hr]

/-- C10: when the entry table holds two rows with the same normalized
path and row `j` is the last one bearing it, the built index maps that
path to row `j`'s metadata, and `RGSS_openRead` and `RGSS_stat` on that
path use only row `j`'s entry. -/
theorem c10_duplicate_path_last_wins (f : Nat → Nat) (len : Nat)
    (a : RGSS_archiveData) (name : List Nat) (i j : Nat) (ei ej : ParsedNamed)
    (ha : RGSS_openArchive f len false = some a)
    (hij : i < j)
    (hi : (parseTable f len (len + 1) 8 RGSS_MAGIC).get? i = some ei)
    (hj : (parseTable f len (len + 1) 8 RGSS_MAGIC).get? j = some ej)
    (hni : cstr ei.name = name) (hnj : cstr ej.name = name)
    (hlast : ∀ k ek, j < k →
      (parseTable f len (len + 1) 8 RGSS_MAGIC).get? k = some ek →
      cstr ek.name ≠ name) :
    hashLookup a.entryHash name = some ej.entry ∧
    RGSS_openRead a name = some (freshHandle ej.entry a.archiveBytes) ∧
    RGSS_stat a name = some ⟨ej.entry.size, PHYSFS_FileType.regular, true⟩ := by
  by_cases hh : readU32val f 0 = RGSS_HEADER_1 ∧ readU32val f 4 = RGSS_HEADER_2
  · unfold RGSS_openArchive at ha
    rw [if_neg (by simp), if_pos hh] at ha
    have hl := lastLookup_at_last name (parseTable f len (len + 1) 8 RGSS_MAGIC)
      j ej hj hnj hlast
    have hb := hashLookup_foldl name (parseTable f len (len + 1) 8 RGSS_MAGIC) []
    simp only [hl] at hb
    have hlook : hashLookup
        (buildEntryHash (parseTable f len (len + 1) 8 RGSS_MAGIC)) name =
          some ej.entry := by
      simpa [buildEntryHash] using hb
    have hrec := Option.some.inj ha
    subst hrec
    refine ⟨hlook, ?_, ?_⟩
    · simp [RGSS_openRead, hlook]
    · simp [RGSS_stat, hlook]
  · exfalso
    unfold RGSS_openArchive at ha
    rw [if_neg (by simp), if_neg hh] at ha
    exact Option.noConfusion ha

/-- The last-wins behaviour on the concrete 26-byte archive whose two
rows are both named `"a"`: lookup, open-read and stat all use the second
row's metadata `{offset 26, size 0, startMagic = 6 advances}`. -/
theorem c10_duplicate_path_last_wins_witness :
    hashLookup testArc.entryHash [97] = some testRow2.entry ∧
    RGSS_openRead testArc [97] = some (freshHandle testRow2.entry testArc.archiveBytes) ∧
    RGSS_stat testArc [97] = some ⟨testRow2.entry.size, PHYSFS_FileType.regular, true⟩ :=
  c10_duplicate_path_last_wins testByteAt 26 testArc [97] 0 1 testRow1 testRow2
    rfl (by decide) (by decide) (by decide) (by decide) (by decide)
    (fun k ek hk hget => by
      have hlen : (parseTable testByteAt 26 (26 + 1) 8 RGSS_MAGIC).length = 2 := by
        decide
      rw [List.get?_eq_none.mpr (by omega)] at hget
      exact Option.noConfusion hget)

/-! ### C8: facade name resolution -/

/-- The extension-probing loop returns `some r` exactly when the
extension list splits as `pre ++ x :: suf` with the candidate for `x`
existing and every earlier candidate missing. -/
theorem firstExisting_eq_some (ex : String → Bool) (filename : String) :
    ∀ (l : List String) (r : String),
      firstExisting ex filename l = some r ↔
        ∃ pre x suf, l = pre ++ x :: suf ∧ r = filename ++ "." ++ x ∧
          ex r = true ∧ ∀ y ∈ pre, ex (filename ++ "." ++ y) = false := by
  intro l
  induction l with
  | nil =>
    intro r
    constructor
    · intro h; exact Option.noConfusion h
    · rintro ⟨pre, x, suf, hsplit, -⟩
      cases pre <;> exact Option.noConfusion (congrArg List.head? hsplit)
  | cons e rest ih =>
    intro r
    cases he : ex (filename ++ "." ++ e) with
    | true =>
      constructor
      · intro h
        simp only [firstExisting, he, if_pos] at h
        have hr : r = filename ++ "." ++ e := (Option.some.inj h).symm
        subst hr
        exact ⟨[], e, rest, rfl, rfl, he, by simp⟩
      · rintro ⟨pre, x, suf, hsplit, hr, hex, hpre⟩
        cases pre with
        | nil =>
          injection hsplit with h1 h2
          subst h1
          subst hr
          simp [firstExisting, he]
        | cons p pre2 =>
          injection hsplit with h1 h2
          subst h1
          have hpe := hpre e (by simp)
          rw [hpe] at he
          exact Bool.noConfusion he
    | false =>
      have hne : ¬ ex (filename ++ "." ++ e) = true := by simp [he]
      constructor
      · intro h
        simp only [firstExisting, if_neg hne] at h
        obtain ⟨pre, x, suf, hsplit, hr, hex, hpre⟩ := (ih r).mp h
        refine ⟨e :: pre, x, suf, by rw [hsplit]; rfl, hr, hex, ?_⟩
        intro y hy
        rcases List.mem_cons.mp hy with rfl | hy2
        · exact he
        · exact hpre y hy2
      · rintro ⟨pre, x, suf, hsplit, hr, hex, hpre⟩
        cases pre with
        | nil =>
          injection hsplit with h1 h2
          subst h1
          subst hr
          rw [hex] at he
          exact Bool.noConfusion he
        | cons p pre2 =>
          injection hsplit with h1 h2
          subst h1
          subst h2
          simp only [firstExisting, if_neg hne]
          exact (ih r).mpr ⟨pre2, x, suf, rfl, hr, hex,
            fun y hy => hpre y (List.mem_cons_of_mem _ hy)⟩

/-- C8: `completeFileName` returns the verbatim name when it exists;
otherwise, for a known category, the first extension-completed candidate
that exists; `openReadInt` fails with `NoFileError` carrying the original
logical name exactly when resolution fails; and `FileSystem::exists` is
true exactly when resolution succeeds. -/
theorem c8_resolution (ex openOk : String → Bool) (name : String) (t : FileType) :
    (∀ r, completeFileName ex name t = some r ↔
      (ex name = true ∧ r = name) ∨
      (ex name = false ∧ ∃ pre x suf, fileExtensions t = pre ++ x :: suf ∧
        r = name ++ "." ++ x ∧ ex r = true ∧
        ∀ y ∈ pre, ex (name ++ "." ++ y) = false)) ∧
    (openReadInt ex openOk name t = Except.error (FSError.NoFileError name) ↔
      completeFileName ex name t = none) ∧
    (FS_exists ex name t = true ↔ ∃ r, completeFileName ex name t = some r) := by
  refine ⟨?_, ?_, ?_⟩
  · intro r
    cases hex : ex name with
    | true =>
      simp only [completeFileName, hex, if_pos, Option.some.injEq, Bool.true_eq_false,
        false_and, or_false, true_and]
      exact eq_comm
    | false =>
      by_cases ht : t = FileType.Undefined
      · subst ht
        simp only [completeFileName, hex, Bool.false_eq_true, if_false,
          ne_eq, not_true_eq_false, reduceCtorEq]
        simp only [fileExtensions]
        constructor
        · intro h; exact h.elim
        · rintro (⟨h1, -⟩ | ⟨-, pre, x, suf, hsplit, -⟩)
          · exact h1.elim
          · cases pre <;> exact Option.noConfusion (congrArg List.head? hsplit)
      · rw [show completeFileName ex name t =
            firstExisting ex name (fileExtensions t) by
              simp [completeFileName, hex, ht]]
        rw [firstExisting_eq_some ex name (fileExtensions t) r]
        simp [hex]
  · cases hc : completeFileName ex name t with
    | none => simp [openReadInt, hc]
    | some found =>
      simp only [openReadInt, hc]
      cases hok : openOk found with
      | true => simp
      | false => simp
  · cases hc : completeFileName ex name t with
    | none => simp [FS_exists, hc]
    | some found => simp [FS_exists, hc]

/-- A mount set holding only `"title.png"`. -/
def titleFS : String → Bool := fun s => s == "title.png"

/-- Resolution succeeds for the logical name `"title"` in the image
category via the extension fallback. -/
theorem c8_resolution_witness :
    FS_exists titleFS ("title") FileType.Image = true :=
  (c8_resolution titleFS titleFS ("title") FileType.Image).2.2.mpr
    ⟨("title.png"), by decide⟩
